import Mathlib

/-!
Verification development for the Efaktur-Rename-Flask repository.

The file shallowly embeds the core of `renamer.py`: the filename sanitizer
`_sanitize`, the text normalizer `_normalize_for_search`, the field
extraction pipeline `parse_pdf_fields` (its regex tiers `RE_SERI`,
`RE_INV_STRICT`, `RE_REF` are compiled into explicit matchers over
`List Char`), the name builder `build_new_name`, and the batch processor
`process_files`.

Modelling conventions:
* Python `str` is `String` / `List Char`; bytes are `List Nat`.
* Python's `\s` (and `str.strip`) is modelled by the ASCII whitespace set
  `[' ', '\t', '\n', '\r', '\x0b', '\x0c']`; `\w` by `[A-Za-z0-9_]`;
  `\d` by `[0-9]`; `IGNORECASE` by ASCII `Char.toLower` comparison.
  These agree with Python's semantics on ASCII text.
* PDF text extraction (PyPDF2) is an external collaborator; a file record
  carries the outcome of that call as an `Option String`
  (`none` = the `except` path of `parse_pdf_fields`).
-/

namespace Renamer

/-- The whitespace class used by Python's `\s` and `str.strip` (ASCII part). -/
def isWsChar (c : Char) : Bool :=
  c = ' ' || c = '\t' || c = '\n' || c = '\r' || c = '\x0b' || c = '\x0c'

/-- The character class of `re.sub(r"[\\/:\*\?\"<>\|\r\n\t]", " ", s)` in
`_sanitize`: filesystem-illegal characters replaced by a space. -/
def isIllegalChar (c : Char) : Bool :=
  c = '\\' || c = '/' || c = ':' || c = '*' || c = '?' || c = '"' ||
  c = '<' || c = '>' || c = '|' || c = '\r' || c = '\n' || c = '\t'

/-- One illegal character becomes one space (the body of the first `re.sub`
of `_sanitize`, applied characterwise since the pattern is one character). -/
def replIllegal (c : Char) : Char :=
  if isIllegalChar c then ' ' else c

/-- `re.sub(r"\s+", " ", ·)` on a character list: each maximal run of
whitespace becomes a single space.  The boolean flag records whether the
previous character belonged to a whitespace run already replaced. -/
def collapseWs : Bool → List Char → List Char
  | _, [] => []
  | prevWs, c :: cs =>
    if isWsChar c then
      if prevWs then collapseWs true cs else ' ' :: collapseWs true cs
    else c :: collapseWs false cs

/-- Leading-whitespace part of Python `str.strip`. -/
def dropLeadWs (l : List Char) : List Char := l.dropWhile isWsChar

/-- Trailing-whitespace part of Python `str.strip`. -/
def dropTrailWs (l : List Char) : List Char :=
  (l.reverse.dropWhile isWsChar).reverse

/-- Python `str.strip()` (no arguments): remove leading and trailing
whitespace. -/
def pyStrip (l : List Char) : List Char := dropTrailWs (dropLeadWs l)

/-- `_sanitize` from `renamer.py` on a character list:
`s.strip()`, then `re.sub(r"[\\/:\*\?\"<>\|\r\n\t]", " ", s)`,
then `re.sub(r"\s+", " ", s)`. -/
def sanitizeData (l : List Char) : List Char :=
  collapseWs false ((pyStrip l).map replIllegal)

/-- `_sanitize` from `renamer.py`. -/
def _sanitize (s : String) : String := ⟨sanitizeData s.data⟩

/-- Python `str.strip()` on `String`, for stating results about `_sanitize`. -/
def pyStripStr (s : String) : String := ⟨pyStrip s.data⟩

/-- Second step of `_normalize_for_search`: `re.sub(r"\s*/\s*", "/", s)`.
The scan state is: `absorb = true` right after a replaced `/`, while the
greedy trailing `\s*` of the match is still consuming; `pend` holds (in
reverse) whitespace already read that may yet become the leading `\s*` of a
match ending at a later `/`. -/
def tightenAux : Bool → List Char → List Char → List Char
  | _, pend, [] => pend.reverse
  | true, _, c :: cs =>
    if isWsChar c then tightenAux true [] cs
    else if c = '/' then '/' :: tightenAux true [] cs
    else c :: tightenAux false [] cs
  | false, pend, c :: cs =>
    if isWsChar c then tightenAux false (c :: pend) cs
    else if c = '/' then '/' :: tightenAux true [] cs
    else pend.reverse ++ c :: tightenAux false [] cs

/-- `_normalize_for_search` from `renamer.py` on a character list:
collapse whitespace runs to one space, then delete whitespace around `/`. -/
def normData (l : List Char) : List Char :=
  tightenAux false [] (collapseWs false l)

/-- `_normalize_for_search` from `renamer.py`. -/
def _normalize_for_search (s : String) : String := ⟨normData s.data⟩

/-- `_invoice_ref_to_filename` from `renamer.py`:
`ref.replace("/", "／")` in pretty mode, `ref.replace("/", "-")` otherwise.
(`str.replace` with a one-character pattern is a characterwise map.) -/
def _invoice_ref_to_filename (ref : String) (allow_unicode_slash : Bool) : String :=
  if allow_unicode_slash then ⟨ref.data.map (fun c => if c = '/' then '／' else c)⟩
  else ⟨ref.data.map (fun c => if c = '/' then '-' else c)⟩

/-- Decimal digits of a natural number, with structural fuel (any fuel
above the argument gives the same digits, see `natDecAux_congr`). -/
def natDecAux : Nat → Nat → List Char
  | 0, _ => []
  | fuel + 1, n =>
    if n < 10 then [Nat.digitChar n]
    else natDecAux fuel (n / 10) ++ [Nat.digitChar (n % 10)]

/-- Decimal rendering of a natural number (the `{i}` of the f-string
`f"{stem} ({i}).pdf"` in `process_files`). -/
def natDec (n : Nat) : List Char := natDecAux (n + 1) n

/-- Decimal rendering as a `String`. -/
def natDecStr (n : Nat) : String := ⟨natDec n⟩

/-- `os.path.splitext` restricted to plain file names (no path separator,
which is the only way it is called in `process_files`): split at the last
dot, unless every character before that dot is itself a dot. -/
def splitext (p : String) : String × String :=
  match p.data.reverse.dropWhile (fun c => c ≠ '.') with
  | [] => (p, "")
  | _ :: us =>
    if us.any (fun c => c ≠ '.') then
      (⟨us.reverse⟩, ⟨'.' :: (p.data.reverse.takeWhile (fun c => c ≠ '.')).reverse⟩)
    else (p, "")

/-- The collision candidate `f"{stem} ({i}).pdf"` from `process_files`. -/
def candName (stem : String) (i : Nat) : String :=
  stem ++ " (" ++ natDecStr i ++ ").pdf"

/-- The `while final in existing` loop of `process_files`, with explicit
fuel.  `process_files` calls it with fuel `existing.length + 1`, which is
proven below to be enough for the loop to exit with a fresh name. -/
def resolveAux (ex : List String) (stem : String) : Nat → Nat → String → String
  | 0, _, final => final
  | fuel + 1, i, final =>
    if final ∈ ex then resolveAux ex stem fuel (i + 1) (candName stem i)
    else final

/-- Collision resolution for one composed candidate name against the names
already in this batch's outputs (lines 124-131 of `renamer.py`). -/
def resolveName (ex : List String) (new_name : String) : String :=
  resolveAux ex (splitext new_name).1 (ex.length + 1) 1 new_name

/-- Case-insensitive literal matching: consume `pat` (caselessly) from the
front of `l`, returning the rest. -/
def stripCIAux : List Char → List Char → Option (List Char)
  | [], l => some l
  | _ :: _, [] => none
  | p :: ps, c :: cs => if c.toLower = p.toLower then stripCIAux ps cs else none

/-- `\s+`: consume at least one whitespace character, greedily. -/
def wsPlus : List Char → Option (List Char)
  | [] => none
  | c :: cs => if isWsChar c then some (cs.dropWhile isWsChar) else none

/-- The character class `[\d\.\-\s]` of `RE_SERI`'s capture group. -/
def isSeriClass (c : Char) : Bool :=
  c.isDigit || c = '.' || c = '-' || isWsChar c

/-- Attempt `RE_SERI` at the start of `l` and return the capture group
`(?P<seri>[\d\.\-\s]+)`.  The pattern is
`Kode\s+dan\s+Nomor\s+Seri\s+Faktur\s+Pajak\s*:\s*([\d\.\-\s]+)` with
`IGNORECASE`.  After the colon, the greedy `\s*` eats the whole whitespace
run; the greedy class then needs at least one character, so the capture is
the maximal class run minus its leading whitespace — except when that run is
pure whitespace, where `\s*` backtracks one character and the capture is the
run's final whitespace character. -/
def matchSeriHere (l : List Char) : Option (List Char) :=
  (stripCIAux "kode".data l).bind fun l1 =>
  (wsPlus l1).bind fun l2 =>
  (stripCIAux "dan".data l2).bind fun l3 =>
  (wsPlus l3).bind fun l4 =>
  (stripCIAux "nomor".data l4).bind fun l5 =>
  (wsPlus l5).bind fun l6 =>
  (stripCIAux "seri".data l6).bind fun l7 =>
  (wsPlus l7).bind fun l8 =>
  (stripCIAux "faktur".data l8).bind fun l9 =>
  (wsPlus l9).bind fun l10 =>
  (stripCIAux "pajak".data l10).bind fun l11 =>
  match l11.dropWhile isWsChar with
  | ':' :: l12 =>
    let t := l12.takeWhile isSeriClass
    if t.isEmpty then none
    else if t.all isWsChar then some [t.getLastD ' ']
    else some (t.dropWhile isWsChar)
  | _ => none

/-- `RE_SERI.search`: leftmost position where `RE_SERI` matches; returns the
capture group. -/
def searchSeri : List Char → Option (List Char)
  | [] => none
  | c :: cs =>
    match matchSeriHere (c :: cs) with
    | some g => some g
    | none => searchSeri cs

/-- Python's `\w` (ASCII part). -/
def isWordChar (c : Char) : Bool := c.isAlphanum || c = '_'

/-- Consume exactly `n` decimal digits, returning them and the rest. -/
def takeDigits : Nat → List Char → Option (List Char × List Char)
  | 0, l => some ([], l)
  | _ + 1, [] => none
  | n + 1, c :: cs =>
    if c.isDigit then (takeDigits n cs).map (fun p => (c :: p.1, p.2)) else none

/-- Attempt `RE_INV_STRICT` (`\bINV/\d{4}/\d{2}/\d{4}\b`, `IGNORECASE`) at
the start of `l` (the leading `\b` is checked by the caller); returns the
matched slice in its original case, as `m.group(0)` does. -/
def matchStrictHere (l : List Char) : Option (List Char) :=
  match l with
  | a :: b :: c :: s :: rest =>
    if a.toLower = 'i' && b.toLower = 'n' && c.toLower = 'v' && s = '/' then
      (takeDigits 4 rest).bind fun d1 =>
      match d1.2 with
      | '/' :: r2 =>
        (takeDigits 2 r2).bind fun d2 =>
        match d2.2 with
        | '/' :: r4 =>
          (takeDigits 4 r4).bind fun d3 =>
          match d3.2 with
          | [] => some ([a, b, c, '/'] ++ d1.1 ++ '/' :: d2.1 ++ '/' :: d3.1)
          | x :: _ =>
            if isWordChar x then none
            else some ([a, b, c, '/'] ++ d1.1 ++ '/' :: d2.1 ++ '/' :: d3.1)
        | _ => none
      | _ => none
    else none
  | _ => none

/-- `RE_INV_STRICT.search`: leftmost match, threading the previous character
for the leading word boundary (`I` is a word character, so the position
qualifies only when the previous character is absent or not a word
character). -/
def searchStrictAux : Option Char → List Char → Option (List Char)
  | _, [] => none
  | prev, c :: cs =>
    let bOK := match prev with
      | none => true
      | some p => !isWordChar p
    if bOK then
      match matchStrictHere (c :: cs) with
      | some m => some m
      | none => searchStrictAux (some c) cs
    else searchStrictAux (some c) cs

/-- `RE_INV_STRICT.search` on a character list. -/
def searchStrict (l : List Char) : Option (List Char) := searchStrictAux none l

/-- The negated class `[^)\n\r]` of `RE_REF`'s capture group. -/
def badRefChar (c : Char) : Bool := c = ')' || c = '\n' || c = '\r'

/-- The tail `\s*([^)\n\r]+?)\s*\)?` of `RE_REF`.  The continuation after
the lazy group (`\s*\)?`) always matches the empty string, so the lazy
`+?` matches exactly one character: the greedy leading `\s*` consumes the
whole whitespace run, and the group takes the next character if it is not
in `)\n\r`; otherwise `\s*` backtracks one step and the group takes the
run's last whitespace character (whitespace is never in `)\n\r`).  If the
run is empty and the next character is excluded (or absent), this part of
the pattern fails. -/
def refContin (l : List Char) : Option Char :=
  let w := l.takeWhile isWsChar
  let r := l.dropWhile isWsChar
  match r with
  | c :: _ =>
    if badRefChar c then
      match w with
      | [] => none
      | _ :: _ => some (w.getLastD ' ')
    else some c
  | [] =>
    match w with
    | [] => none
    | _ :: _ => some (w.getLastD ' ')

/-- Attempt `RE_REF` (`\(?\s*Referensi:?\s*(?P<ref>[^)\n\r]+?)\s*\)?`,
`IGNORECASE`) at the start of `l`; returns the capture group.  The greedy
`\(?` and `\s*` before the literal never need to backtrack (no shorter
consumption can reach the literal `R`), while the optional `:?` does: if
matching with the colon consumed fails, the group may take the colon
itself. -/
def matchRefHere (l : List Char) : Option Char :=
  let l0 := match l with
    | '(' :: rest => rest
    | _ => l
  let l1 := l0.dropWhile isWsChar
  (stripCIAux "referensi".data l1).bind fun l2 =>
  match l2 with
  | ':' :: l3 =>
    match refContin l3 with
    | some g => some g
    | none => refContin l2
  | _ => refContin l2

/-- `RE_REF.search`: leftmost position where `RE_REF` matches; returns the
capture group (one character, see `refContin`). -/
def searchRef : List Char → Option Char
  | [] => none
  | c :: cs =>
    match matchRefHere (c :: cs) with
    | some g => some g
    | none => searchRef cs

/-- The two-tier invoice-reference selection of `parse_pdf_fields`
(lines 72-84 of `renamer.py`): prefer a strict `RE_INV_STRICT` match
(uppercased) anywhere in the text; otherwise fall back to the sanitized
`RE_REF` capture, itself searched again for the strict pattern. -/
def refTier (norm : List Char) : Option String :=
  match searchStrict norm with
  | some m => some ⟨m.map Char.toUpper⟩
  | none =>
    match searchRef norm with
    | some g =>
      let cand := _sanitize ⟨[g]⟩
      match searchStrict cand.data with
      | some inner => some ⟨inner.map Char.toUpper⟩
      | none => some cand
    | none => none

/-- The serial-number cleanup of lines 66-70 of `renamer.py`, applied to
the `RE_SERI` capture: `re.sub(r"[^\d\.\-]", "", ·)` then
`.replace(".", "")` then `.replace("-", "")` then `_sanitize`. -/
def seriClean (g : List Char) : List Char :=
  sanitizeData
    (((g.filter fun c => c.isDigit || c = '.' || c = '-').filter
        fun c => c ≠ '.').filter fun c => c ≠ '-')

/-- Python's `x or None` on an optional string: `None` and `""` both give
`None`. -/
def orNone (o : Option String) : Option String :=
  match o with
  | some s => if s = "" then none else some s
  | none => none

/-- Lines 59-89 of `parse_pdf_fields`: the pure part that runs on the raw
extracted text (normalize, then the two extractions, then the final
post-processing of the reference and the `or None` coercions). -/
def parse_fields (raw : String) : Option String × Option String :=
  let norm := normData raw.data
  let seri : Option String :=
    match searchSeri norm with
    | some g => some ⟨seriClean g⟩
    | none => none
  let ref : Option String :=
    match refTier norm with
    | some r => if r ≠ "" then some (_invoice_ref_to_filename (_sanitize r) true) else some r
    | none => none
  (orNone ref, orNone seri)

/-- `parse_pdf_fields` from `renamer.py` as a function of the outcome of
the external PDF text extraction (`none` models the `except` branch of
lines 50-57, which returns `(None, None)`). -/
def parse_pdf_fields (extracted : Option String) : Option String × Option String :=
  match extracted with
  | none => (none, none)
  | some raw => parse_fields raw

/-- `build_new_name` from `renamer.py`.  Python's `if not ref or not seri`
is falsiness on `Optional[str]`: `None` and `""` are both falsy. -/
def build_new_name (ref seri : Option String) (pretty_slash : Bool) : Option String :=
  match ref, seri with
  | some r, some s =>
    if r = "" || s = "" then none
    else
      let ref_disp := _invoice_ref_to_filename (_sanitize r) pretty_slash
      let base := _sanitize (ref_disp ++ " - " ++ s)
      if base = "" then none else some (base ++ ".pdf")
  | _, _ => none

/-- One uploaded file record, as `process_files` sees it: the (possibly
missing) original filename, the bytes returned by `fs.read()`, and the
outcome of the external PDF text extraction on those bytes (`none` when
`PdfReader`/`extract_text` raises). -/
structure FileRec where
  filename : Option String
  data : List Nat
  extract : Option String

/-- `fname.lower().endswith(".pdf")`. -/
def endsWithPdfCI (s : String) : Bool :=
  match (s.data.map Char.toLower).reverse with
  | 'f' :: 'd' :: 'p' :: '.' :: _ => true
  | _ => false

/-- The body of the `for fs in file_storages` loop in `process_files`,
split into the one log line it appends and the new outputs list. -/
def stepCore (dry : Bool) (outs : List (String × List Nat)) (fs : FileRec) :
    String × List (String × List Nat) :=
  let fname := fs.filename.getD ""
  if !endsWithPdfCI fname then ("❌ Bukan PDF: " ++ fname, outs)
  else if fs.data = [] then ("❌ File kosong: " ++ fname, outs)
  else
    let rs := parse_pdf_fields fs.extract
    match build_new_name rs.1 rs.2 true with
    | some new_name =>
      let existing := outs.map Prod.fst
      let final := resolveName existing new_name
      ("✅ " ++ fname ++ " → " ++ final,
        if dry then outs else outs ++ [(final, fs.data)])
    | none =>
      if rs.1 = none ∧ rs.2 = none then
        ("⚠️ " ++ fname ++ ": Referensi & Nomor Seri tidak ditemukan.", outs)
      else if rs.1 = none then
        ("⚠️ " ++ fname ++ ": Referensi tidak ditemukan.", outs)
      else
        ("⚠️ " ++ fname ++ ": Nomor Seri Faktur Pajak tidak ditemukan.", outs)

/-- The log line `stepCore` appends for one record. -/
def stepLine (dry : Bool) (outs : List (String × List Nat)) (fs : FileRec) : String :=
  (stepCore dry outs fs).1

/-- One loop iteration of `process_files` on the running
`(results, outputs)` state. -/
def step (dry : Bool) (st : List String × List (String × List Nat)) (fs : FileRec) :
    List String × List (String × List Nat) :=
  (st.1 ++ [(stepCore dry st.2 fs).1], (stepCore dry st.2 fs).2)

/-- `process_files` from `renamer.py`: fold the loop body over the records,
starting from empty `results` and `outputs`. -/
def process_files (recs : List FileRec) (dry_run : Bool) :
    List String × List (String × List Nat) :=
  recs.foldl (step dry_run) ([], [])

/-- The serial-number component of `parse_pdf_fields` (lines 62-70 plus the
final `seri or None` of line 89), as a function of the text it searches. -/
def extractSeri (t : String) : Option String :=
  orNone
    (match searchSeri t.data with
     | some g => some ⟨seriClean g⟩
     | none => none)

/-- No two adjacent whitespace characters. -/
def noWW (a b : Char) : Prop := ¬(isWsChar a = true ∧ isWsChar b = true)

/-- The adjacency invariant claimed for normalized text: no two adjacent
whitespace characters, and no whitespace adjacent to a `/`. -/
def slashWsOK (a b : Char) : Prop :=
  ¬(isWsChar a = true ∧ isWsChar b = true) ∧
  ¬(isWsChar a = true ∧ b = '/') ∧
  ¬(a = '/' ∧ isWsChar b = true)

/-- The end-to-end test text of the specification: both labeled fields are
present, with the strict invoice pattern inside the `Referensi` phrase. -/
def c1Text : String :=
  "Kode dan Nomor Seri Faktur Pajak: 123.456-789 (Referensi: INV/2025/09/0654)"

/-- Two uploaded records whose PDFs extract to the same text, so both
compose the identical candidate filename. -/
def twinRec1 : FileRec := ⟨some "a.pdf", [1], some c1Text⟩

/-- See `twinRec1`. -/
def twinRec2 : FileRec := ⟨some "b.pdf", [2], some c1Text⟩

/-! ### Lemmas about `collapseWs` and `_sanitize` -/

theorem mem_collapseWs {c : Char} :
    ∀ (l : List Char) (b : Bool), c ∈ collapseWs b l → c ∈ l ∨ c = ' ' := by
  intro l
  induction l with
  | nil => intro b h; simp [collapseWs] at h
  | cons d ds ih =>
    intro b h
    simp only [collapseWs] at h
    by_cases hw : isWsChar d
    · rw [if_pos hw] at h
      cases b with
      | true =>
        rcases ih true h with h' | h'
        · exact Or.inl (List.mem_cons_of_mem _ h')
        · exact Or.inr h'
      | false =>
        rw [if_neg (by decide)] at h
        simp only [List.mem_cons] at h
        rcases h with h | h
        · exact Or.inr h
        · rcases ih true h with h' | h'
          · exact Or.inl (List.mem_cons_of_mem _ h')
          · exact Or.inr h'
    · rw [if_neg hw] at h
      simp only [List.mem_cons] at h
      rcases h with h | h
      · exact Or.inl (h ▸ List.mem_cons_self _ _)
      · rcases ih false h with h' | h'
        · exact Or.inl (List.mem_cons_of_mem _ h')
        · exact Or.inr h'

theorem ws_mem_collapseWs {c : Char} :
    ∀ (l : List Char) (b : Bool), c ∈ collapseWs b l → isWsChar c = true → c = ' ' := by
  intro l
  induction l with
  | nil => intro b h; simp [collapseWs] at h
  | cons d ds ih =>
    intro b h hws
    simp only [collapseWs] at h
    by_cases hw : isWsChar d
    · rw [if_pos hw] at h
      cases b with
      | true => exact ih true h hws
      | false =>
        rw [if_neg (by decide)] at h
        simp only [List.mem_cons] at h
        rcases h with h | h
        · exact h
        · exact ih true h hws
    · rw [if_neg hw] at h
      simp only [List.mem_cons] at h
      rcases h with h | h
      · exact absurd (h ▸ hws) (by simpa using hw)
      · exact ih false h hws

theorem head_collapseWs_true :
    ∀ (l : List Char) (h : Char), (collapseWs true l).head? = some h → isWsChar h = false := by
  intro l
  induction l with
  | nil => intro h hh; simp [collapseWs] at hh
  | cons d ds ih =>
    intro h hh
    simp only [collapseWs] at hh
    by_cases hw : isWsChar d
    · rw [if_pos hw] at hh
      exact ih h hh
    · rw [if_neg hw] at hh
      simp only [List.head?_cons, Option.some.injEq] at hh
      simpa [← hh] using hw

theorem chain_collapseWs :
    ∀ (l : List Char) (b : Bool), List.Chain' noWW (collapseWs b l) := by
  intro l
  induction l with
  | nil => intro b; simp [collapseWs]
  | cons d ds ih =>
    intro b
    simp only [collapseWs]
    by_cases hw : isWsChar d
    · rw [if_pos hw]
      cases b with
      | true => exact ih true
      | false =>
        rw [if_neg (by simp)]
        refine List.chain'_cons'.mpr ⟨?_, ih true⟩
        intro y hy
        have := head_collapseWs_true ds y hy
        intro hc
        rw [this] at hc
        exact absurd hc.2 (by simp)
    · rw [if_neg hw]
      refine List.chain'_cons'.mpr ⟨?_, ih false⟩
      intro y hy
      intro hc
      exact absurd hc.1 (by simpa using hw)

theorem collapseWs_eq_self :
    ∀ (l : List Char) (b : Bool),
      (∀ c ∈ l, isWsChar c = true → c = ' ') →
      List.Chain' noWW l →
      (b = true → ∀ h, l.head? = some h → isWsChar h = false) →
      collapseWs b l = l := by
  intro l
  induction l with
  | nil => intro b _ _ _; simp [collapseWs]
  | cons d ds ih =>
    intro b hsp hch hhd
    simp only [collapseWs]
    by_cases hw : isWsChar d
    · rw [if_pos hw]
      cases b with
      | true => exact absurd (hhd rfl d rfl) (by simpa using hw)
      | false =>
        rw [if_neg (by simp)]
        have hd : d = ' ' := hsp d (List.mem_cons_self _ _) hw
        have htail : collapseWs true ds = ds := by
          refine ih true (fun c hc => hsp c (List.mem_cons_of_mem _ hc)) hch.tail ?_
          intro _ h hh
          cases ds with
          | nil => simp at hh
          | cons e es =>
            simp only [List.head?_cons, Option.some.injEq] at hh
            subst hh
            have := (List.chain'_cons.mp hch).1
            by_contra hcon
            exact this ⟨hw, by simpa using hcon⟩
        rw [htail, hd]
    · rw [if_neg hw]
      have htail : collapseWs false ds = ds :=
        ih false (fun c hc => hsp c (List.mem_cons_of_mem _ hc)) hch.tail (by simp)
      rw [htail]

theorem map_replIllegal_id :
    ∀ (l : List Char), (∀ c ∈ l, isIllegalChar c = false) → l.map replIllegal = l := by
  intro l h
  induction l with
  | nil => rfl
  | cons d ds ih =>
    simp only [List.map_cons]
    rw [ih (fun c hc => h c (List.mem_cons_of_mem _ hc))]
    have : replIllegal d = d := by
      simp [replIllegal, h d (List.mem_cons_self _ _)]
    rw [this]

theorem mem_pyStrip {c : Char} {l : List Char} (h : c ∈ pyStrip l) : c ∈ l := by
  have h1 : c ∈ (dropLeadWs l).reverse.dropWhile isWsChar := by
    simpa [pyStrip, dropTrailWs] using h
  have h2 : c ∈ (dropLeadWs l).reverse := (List.dropWhile_sublist _).subset h1
  have h3 : c ∈ dropLeadWs l := by simpa using h2
  exact (List.dropWhile_sublist _).subset h3

theorem chain'_dropWhile {R : Char → Char → Prop} (p : Char → Bool) :
    ∀ (l : List Char), List.Chain' R l → List.Chain' R (l.dropWhile p) := by
  intro l h
  induction l with
  | nil => simpa using h
  | cons d ds ih =>
    by_cases hp : p d
    · rw [List.dropWhile_cons_of_pos hp]
      exact ih h.tail
    · rw [List.dropWhile_cons_of_neg hp]
      exact h

theorem chain'_pyStrip {R : Char → Char → Prop} :
    ∀ (l : List Char), List.Chain' R l → List.Chain' R (pyStrip l) := by
  intro l h
  have h1 : List.Chain' R (dropLeadWs l) := chain'_dropWhile _ _ h
  have h2 : List.Chain' (flip R) (dropLeadWs l).reverse := by
    rw [List.chain'_reverse]
    exact h1
  have h3 : List.Chain' (flip R) ((dropLeadWs l).reverse.dropWhile isWsChar) :=
    chain'_dropWhile _ _ h2
  have h4 : List.Chain' R ((dropLeadWs l).reverse.dropWhile isWsChar).reverse := by
    rw [List.chain'_reverse]
    exact h3
  simpa [pyStrip, dropTrailWs] using h4

theorem sanitizeData_noIllegal {l : List Char} :
    ∀ c ∈ sanitizeData l, isIllegalChar c = false := by
  intro c hc
  rcases mem_collapseWs _ _ hc with h | h
  · rcases List.mem_map.mp h with ⟨d, _, rfl⟩
    by_cases hd : isIllegalChar d
    · rw [show replIllegal d = ' ' from by simp [replIllegal, hd]]
      decide
    · simpa [replIllegal, hd] using hd
  · simp [h, isIllegalChar]

theorem sanitizeData_wsSpace {l : List Char} :
    ∀ c ∈ sanitizeData l, isWsChar c = true → c = ' ' :=
  fun c hc => ws_mem_collapseWs _ _ hc

theorem chain_sanitizeData (l : List Char) : List.Chain' noWW (sanitizeData l) :=
  chain_collapseWs _ _

/-- Applying `_sanitize` twice equals stripping the once-sanitized string:
the only difference a second pass can make is removing the leading/trailing
spaces that the first pass's illegal-character substitution introduced at
the edges. -/
theorem sanitizeData_sanitizeData (l : List Char) :
    sanitizeData (sanitizeData l) = pyStrip (sanitizeData l) := by
  set y := sanitizeData l with hy
  have hmap : (pyStrip y).map replIllegal = pyStrip y :=
    map_replIllegal_id _ (fun c hc => sanitizeData_noIllegal c (mem_pyStrip hc))
  have hcoll : collapseWs false (pyStrip y) = pyStrip y := by
    refine collapseWs_eq_self _ _ ?_ ?_ (by simp)
    · exact fun c hc => sanitizeData_wsSpace c (mem_pyStrip hc)
    · exact chain'_pyStrip _ (chain_sanitizeData l)
  show collapseWs false ((pyStrip y).map replIllegal) = pyStrip y
  rw [hmap, hcoll]

/-! ### Lemmas about `tightenAux` and `_normalize_for_search` -/

theorem head_tightenAux_true :
    ∀ (l : List Char) (h : Char),
      (tightenAux true [] l).head? = some h → isWsChar h = false := by
  intro l
  induction l with
  | nil => intro h hh; simp [tightenAux] at hh
  | cons c cs ih =>
    intro h hh
    simp only [tightenAux] at hh
    by_cases hw : isWsChar c
    · rw [if_pos hw] at hh
      exact ih h hh
    · rw [if_neg hw] at hh
      by_cases hs : c = '/'
      · rw [if_pos hs] at hh
        simp only [List.head?_cons, Option.some.injEq] at hh
        subst hh
        decide
      · rw [if_neg hs] at hh
        simp only [List.head?_cons, Option.some.injEq] at hh
        subst hh
        simpa using hw

theorem chain_tightenAux :
    ∀ (l : List Char) (a : Bool) (pend : List Char),
      List.Chain' noWW l →
      (∀ x ∈ pend, isWsChar x = true) →
      (a = true → pend = []) →
      (pend ≠ [] → pend.length ≤ 1 ∧ ∀ h, l.head? = some h → isWsChar h = false) →
      List.Chain' slashWsOK (tightenAux a pend l) := by
  intro l
  induction l with
  | nil =>
    intro a pend _ _ hae hp
    cases a with
    | true =>
      cases pend with
      | nil => simp [tightenAux]
      | cons x xs => exact absurd (hae rfl) (by simp)
    | false =>
      cases pend with
      | nil => simp [tightenAux]
      | cons x xs =>
        have hlen := (hp (by simp)).1
        have : xs = [] := by
          cases xs with
          | nil => rfl
          | cons y ys => simp at hlen
        subst this
        simp [tightenAux]
  | cons c cs ih =>
    intro a pend hch hpw hae hp
    cases a with
    | true =>
      have hpe : pend = [] := hae rfl
      subst hpe
      simp only [tightenAux]
      by_cases hw : isWsChar c
      · rw [if_pos hw]
        exact ih true [] hch.tail (by simp) (fun _ => rfl) (by simp)
      · rw [if_neg hw]
        by_cases hs : c = '/'
        · rw [if_pos hs]
          refine List.chain'_cons'.mpr ⟨?_, ih true [] hch.tail (by simp) (fun _ => rfl) (by simp)⟩
          intro y hy
          have hyw := head_tightenAux_true cs y hy
          exact ⟨fun h => absurd h.1 (by decide), fun h => absurd h.1 (by decide),
            fun h => absurd h.2 (by simp [hyw])⟩
        · rw [if_neg hs]
          refine List.chain'_cons'.mpr ⟨?_, ih false [] hch.tail (by simp) (by simp) (by simp)⟩
          intro y _
          exact ⟨fun h => absurd h.1 hw, fun h => absurd h.1 hw, fun h => absurd h.1 hs⟩
    | false =>
      simp only [tightenAux]
      by_cases hw : isWsChar c
      · rw [if_pos hw]
        have hpe : pend = [] := by
          by_contra hne
          have := (hp hne).2 c rfl
          rw [this] at hw
          exact absurd hw (by simp)
        subst hpe
        refine ih false [c] hch.tail (by simpa using hw) (by simp) ?_
        intro _
        refine ⟨by simp, ?_⟩
        intro h hh
        cases cs with
        | nil => simp at hh
        | cons e es =>
          simp only [List.head?_cons, Option.some.injEq] at hh
          subst hh
          have := (List.chain'_cons.mp hch).1
          by_contra hcon
          exact this ⟨hw, by simpa using hcon⟩
      · rw [if_neg hw]
        by_cases hs : c = '/'
        · rw [if_pos hs]
          refine List.chain'_cons'.mpr ⟨?_, ih true [] hch.tail (by simp) (fun _ => rfl) (by simp)⟩
          intro y hy
          have hyw := head_tightenAux_true cs y hy
          exact ⟨fun h => absurd h.1 (by decide), fun h => absurd h.1 (by decide),
            fun h => absurd h.2 (by simp [hyw])⟩
        · rw [if_neg hs]
          have hrest : List.Chain' slashWsOK (c :: tightenAux false [] cs) := by
            refine List.chain'_cons'.mpr ⟨?_, ih false [] hch.tail (by simp) (by simp) (by simp)⟩
            intro y _
            exact ⟨fun h => absurd h.1 hw, fun h => absurd h.1 hw, fun h => absurd h.1 hs⟩
          cases pend with
          | nil => simpa using hrest
          | cons x xs =>
            have hlen := (hp (by simp)).1
            have hxs : xs = [] := by
              cases xs with
              | nil => rfl
              | cons y ys => simp at hlen
            subst hxs
            simp only [List.reverse_cons, List.reverse_nil, List.nil_append,
              List.singleton_append]
            refine List.chain'_cons.mpr ⟨?_, hrest⟩
            have hxw : isWsChar x = true := hpw x (by simp)
            exact ⟨fun h => absurd h.2 hw, fun h => absurd h.2 hs, fun h => absurd h.2 hw⟩

theorem chain_normData (l : List Char) : List.Chain' slashWsOK (normData l) :=
  chain_tightenAux _ false [] (chain_collapseWs l false) (by simp) (by simp) (by simp)

/-! ### Claims C3 and C8 -/

/-- Claim C3 (counterexample): `_sanitize` is not idempotent.  On `"/"` the
slash is replaced by a space, giving `" "`; the second application strips
that space away, giving `""`. -/
theorem claim_C3_counterexample : _sanitize (_sanitize "/") ≠ _sanitize "/" := by
  decide

/-- Claim C3 (amended): applying the sanitizer twice equals trimming the
once-sanitized string of leading/trailing whitespace — so `_sanitize` is
idempotent exactly up to the edge spaces introduced when an illegal
character sits at the start or end of the trimmed input. -/
theorem claim_C3 :
    ∀ s : String, _sanitize (_sanitize s) = pyStripStr (_sanitize s) := by
  intro s
  exact congrArg String.mk (sanitizeData_sanitizeData s.data)

/-- Claim C8: for every input, the normalizer's output has no two adjacent
whitespace characters and no whitespace adjacent to a `/` (the `slashWsOK`
relation holds between every two adjacent output characters), and the empty
input yields the empty output. -/
theorem claim_C8 :
    (∀ s : String, List.Chain' slashWsOK (_normalize_for_search s).data) ∧
      _normalize_for_search "" = "" :=
  ⟨fun s => chain_normData s.data, rfl⟩

/-! ### Lemmas about `natDec`, `candName`, `splitext` and `resolveAux` -/

theorem natDecAux_congr :
    ∀ (n f g : Nat), n < f → n < g → natDecAux f n = natDecAux g n := by
  intro n
  induction n using Nat.strong_induction_on with
  | _ n ih =>
    intro f g hf hg
    cases f with
    | zero => omega
    | succ f' =>
      cases g with
      | zero => omega
      | succ g' =>
        simp only [natDecAux]
        by_cases h : n < 10
        · rw [if_pos h, if_pos h]
        · rw [if_neg h, if_neg h]
          have hd : n / 10 < n := Nat.div_lt_self (by omega) (by omega)
          rw [ih (n / 10) hd f' g' (by omega) (by omega)]

theorem natDec_lt10 {n : Nat} (h : n < 10) : natDec n = [Nat.digitChar n] := by
  simp [natDec, natDecAux, h]

theorem natDec_ge10 {n : Nat} (h : ¬n < 10) :
    natDec n = natDec (n / 10) ++ [Nat.digitChar (n % 10)] := by
  show natDecAux (n + 1) n = natDecAux (n / 10 + 1) (n / 10) ++ [Nat.digitChar (n % 10)]
  simp only [natDecAux, if_neg h]
  congr 1
  exact natDecAux_congr (n / 10) n (n / 10 + 1)
    (Nat.div_lt_self (by omega) (by omega)) (by omega)

theorem natDec_ne_nil (n : Nat) : natDec n ≠ [] := by
  by_cases h : n < 10
  · rw [natDec_lt10 h]
    simp
  · rw [natDec_ge10 h]
    simp

theorem digitChar_inj_lt10 :
    ∀ a < 10, ∀ b < 10, Nat.digitChar a = Nat.digitChar b → a = b := by
  decide

theorem snoc_inj {α : Type} {a b : List α} {x y : α}
    (h : a ++ [x] = b ++ [y]) : a = b ∧ x = y := by
  have h2 := congrArg List.reverse h
  simp only [List.reverse_append, List.reverse_singleton, List.singleton_append] at h2
  injection h2 with h3 h4
  exact ⟨List.reverse_inj.mp h4, h3⟩

theorem natDec_inj (m : Nat) : ∀ n : Nat, natDec m = natDec n → m = n := by
  induction m using Nat.strong_induction_on with
  | _ m ih =>
    intro n h
    by_cases hm : m < 10 <;> by_cases hn : n < 10
    · rw [natDec_lt10 hm, natDec_lt10 hn] at h
      injection h with h1 _
      exact digitChar_inj_lt10 m hm n hn h1
    · rw [natDec_lt10 hm, natDec_ge10 hn] at h
      have := congrArg List.length h
      simp at this
      exact absurd this (natDec_ne_nil _)
    · rw [natDec_ge10 hm, natDec_lt10 hn] at h
      have := congrArg List.length h
      simp at this
      exact absurd this (natDec_ne_nil _)
    · rw [natDec_ge10 hm, natDec_ge10 hn] at h
      obtain ⟨h1, h2⟩ := snoc_inj h
      have hdiv : m / 10 = n / 10 :=
        ih (m / 10) (Nat.div_lt_self (by omega) (by omega)) _ h1
      have hmod : m % 10 = n % 10 :=
        digitChar_inj_lt10 _ (Nat.mod_lt _ (by omega)) _ (Nat.mod_lt _ (by omega)) h2
      omega

theorem natDecStr_data (n : Nat) : (natDecStr n).data = natDec n := rfl

theorem candName_inj (stem : String) {i j : Nat}
    (h : candName stem i = candName stem j) : i = j := by
  have h' := congrArg String.data h
  simp only [candName, String.data_append, natDecStr_data, List.append_assoc] at h'
  have h1 := List.append_cancel_left h'
  have h2 := List.append_cancel_left h1
  exact natDec_inj _ _ (List.append_cancel_right h2)

theorem dropWhile_head_false {α : Type} {q : α → Bool} :
    ∀ (l : List α) (x : α) (xs : List α), l.dropWhile q = x :: xs → q x = false := by
  intro l
  induction l with
  | nil => intro x xs h; simp at h
  | cons d ds ih =>
    intro x xs h
    by_cases hq : q d
    · rw [List.dropWhile_cons_of_pos hq] at h
      exact ih x xs h
    · rw [List.dropWhile_cons_of_neg hq] at h
      injection h with h1 _
      subst h1
      simpa using hq

/-- Either `splitext` keeps the whole name as the stem, or the name is the
stem followed by a dot and the extension's tail. -/
theorem splitext_cases (p : String) :
    (splitext p).1 = p ∨
      ∃ rest : List Char, p.data = (splitext p).1.data ++ '.' :: rest := by
  cases hu : p.data.reverse.dropWhile (fun c => c ≠ '.') with
  | nil =>
    left
    simp only [splitext]
    rw [hu]
  | cons d us =>
    have hd : d = '.' := by
      have := dropWhile_head_false _ _ _ hu
      simpa using this
    by_cases hany : us.any (fun c => c ≠ '.')
    · have h1 : (splitext p).1 = ⟨us.reverse⟩ := by
        simp only [splitext]
        rw [hu]
        simp only [if_pos hany]
      refine Or.inr ⟨(p.data.reverse.takeWhile (fun c => c ≠ '.')).reverse, ?_⟩
      rw [h1]
      have hsplit : p.data.reverse.takeWhile (fun c => c ≠ '.') ++
          p.data.reverse.dropWhile (fun c => c ≠ '.') = p.data.reverse :=
        List.takeWhile_append_dropWhile _ _
      have h2 := congrArg List.reverse hsplit
      simp only [List.reverse_append, List.reverse_reverse] at h2
      rw [hu, hd] at h2
      simp only [List.reverse_cons, List.append_assoc, List.singleton_append] at h2
      exact h2.symm
    · left
      simp only [splitext]
      rw [hu]
      simp only [if_neg hany]

theorem pdfTail_data : (" (" : String).data = [' ', '('] := rfl

theorem pdfExt_data : (").pdf" : String).data = [')', '.', 'p', 'd', 'f'] := rfl

/-- A candidate collision name is never equal to the original candidate:
either the stem is the whole name and the candidate is strictly longer, or
the original continues after the stem with `'.'` where the candidate
continues with `' '`. -/
theorem newName_ne_cand (nn : String) (i : Nat) :
    nn ≠ candName (splitext nn).1 i := by
  rcases splitext_cases nn with h | ⟨rest, h⟩
  · intro hEq
    have hlen := congrArg (fun s : String => s.data.length) hEq
    simp only [candName, h, String.data_append, natDecStr_data, List.append_assoc,
      pdfTail_data, pdfExt_data, List.length_append, List.length_cons,
      List.length_nil] at hlen
    omega
  · intro hEq
    have h' := congrArg String.data hEq
    rw [h] at h'
    simp only [candName, String.data_append, natDecStr_data, List.append_assoc,
      pdfTail_data] at h'
    have := List.append_cancel_left h'
    simp only [List.cons_append, List.nil_append] at this
    injection this with h1 _
    exact absurd h1 (by decide)

theorem resolveAux_erase (ex : List String) (stem removed : String) :
    ∀ (fuel i : Nat) (final : String), final ≠ removed →
      (∀ j, i ≤ j → candName stem j ≠ removed) →
      resolveAux ex stem fuel i final = resolveAux (ex.erase removed) stem fuel i final := by
  intro fuel
  induction fuel with
  | zero => intro i final _ _; rfl
  | succ f ih =>
    intro i final hfr hc
    have hmem : (final ∈ ex.erase removed) ↔ final ∈ ex := List.mem_erase_of_ne hfr
    by_cases h : final ∈ ex
    · simp only [resolveAux, if_pos h, if_pos (hmem.mpr h)]
      exact ih (i + 1) (candName stem i) (hc i le_rfl)
        (fun j hj => hc j (Nat.le_of_succ_le hj))
    · simp only [resolveAux, if_neg h, if_neg (fun hc' => h (hmem.mp hc'))]

theorem resolveAux_mem_spec (stem : String) :
    ∀ (fuel : Nat) (ex : List String) (i : Nat) (final : String),
      ex.length < fuel →
      (∀ j, i ≤ j → final ≠ candName stem j) →
      final ∈ ex →
      ∃ N, i ≤ N ∧ resolveAux ex stem fuel i final = candName stem N ∧
        candName stem N ∉ ex ∧ ∀ m, i ≤ m → m < N → candName stem m ∈ ex := by
  intro fuel
  induction fuel with
  | zero => intro ex i final hlt _ _; omega
  | succ f ih =>
    intro ex i final hlt hne hmem
    have hex1 : 1 ≤ ex.length := List.length_pos.mpr (List.ne_nil_of_mem hmem)
    by_cases hci : candName stem i ∈ ex
    · -- the next candidate also collides: recurse on the erased list
      set ex' := ex.erase final with hex'
      have htrans : resolveAux ex stem f (i + 1) (candName stem i) =
          resolveAux ex' stem f (i + 1) (candName stem i) :=
        resolveAux_erase ex stem final f (i + 1) (candName stem i)
          (Ne.symm (hne i le_rfl))
          (fun j hj => Ne.symm (hne j (Nat.le_of_succ_le hj)))
      have hlen : ex'.length < f := by
        rw [hex', List.length_erase_of_mem hmem]
        omega
      have hm' : candName stem i ∈ ex' :=
        (List.mem_erase_of_ne (Ne.symm (hne i le_rfl))).mpr hci
      have hne' : ∀ j, i + 1 ≤ j → candName stem i ≠ candName stem j := by
        intro j hj hEq
        have := candName_inj stem hEq
        omega
      obtain ⟨N, hN1, hN2, hN3, hN4⟩ := ih ex' (i + 1) (candName stem i) hlen hne' hm'
      refine ⟨N, by omega, ?_, ?_, ?_⟩
      · simp only [resolveAux, if_pos hmem]
        exact htrans.trans hN2
      · intro hinx
        exact hN3 ((List.mem_erase_of_ne (Ne.symm (hne N (by omega)))).mpr hinx)
      · intro m him hlm
        rcases Nat.eq_or_lt_of_le him with h | h
        · exact h ▸ hci
        · exact List.mem_of_mem_erase (hN4 m h hlm)
    · -- the next candidate is fresh: one more unfold returns it
      have hf1 : 1 ≤ f := by omega
      obtain ⟨f', rfl⟩ : ∃ f', f = f' + 1 := ⟨f - 1, by omega⟩
      refine ⟨i, le_rfl, ?_, hci, by omega⟩
      simp only [resolveAux, if_pos hmem, if_neg hci]

theorem resolveName_not_mem (ex : List String) (nn : String) :
    resolveName ex nn ∉ ex := by
  unfold resolveName
  by_cases h : nn ∈ ex
  · obtain ⟨N, _, heq, hnm, _⟩ :=
      resolveAux_mem_spec (splitext nn).1 (ex.length + 1) ex 1 nn (by omega)
        (fun j _ => newName_ne_cand nn j) h
    rw [heq]
    exact hnm
  · simpa [resolveAux, h] using h

/-! ### Lemmas about `step` and `process_files` -/

theorem stepCore_snd (dry : Bool) (outs : List (String × List Nat)) (fs : FileRec) :
    (stepCore dry outs fs).2 = outs ∨
      ∃ nn, (stepCore dry outs fs).2 =
        outs ++ [(resolveName (outs.map Prod.fst) nn, fs.data)] := by
  simp only [stepCore]
  split
  · exact Or.inl rfl
  · split
    · exact Or.inl rfl
    · split
      · split
        · exact Or.inl rfl
        · exact Or.inr ⟨_, rfl⟩
      · split
        · exact Or.inl rfl
        · split
          · exact Or.inl rfl
          · exact Or.inl rfl

theorem step_pairwise (dry : Bool) (st : List String × List (String × List Nat))
    (fs : FileRec) (h : List.Pairwise (· ≠ ·) (st.2.map Prod.fst)) :
    List.Pairwise (· ≠ ·) ((step dry st fs).2.map Prod.fst) := by
  show List.Pairwise (· ≠ ·) ((stepCore dry st.2 fs).2.map Prod.fst)
  rcases stepCore_snd dry st.2 fs with h0 | ⟨nn, h0⟩
  · rw [h0]
    exact h
  · rw [h0, List.map_append]
    refine List.pairwise_append.mpr ⟨h, List.pairwise_singleton _ _, ?_⟩
    intro a ha b hb
    simp only [List.map_cons, List.map_nil, List.mem_singleton] at hb
    subst hb
    exact fun hEq => resolveName_not_mem _ _ (hEq ▸ ha)

theorem foldl_step_pairwise (dry : Bool) :
    ∀ (recs : List FileRec) (st : List String × List (String × List Nat)),
      List.Pairwise (· ≠ ·) (st.2.map Prod.fst) →
      List.Pairwise (· ≠ ·) ((recs.foldl (step dry) st).2.map Prod.fst) := by
  intro recs
  induction recs with
  | nil => intro st h; exact h
  | cons r rs ih =>
    intro st h
    exact ih (step dry st r) (step_pairwise dry st r h)

theorem foldl_step_factor (dry : Bool) :
    ∀ (recs : List FileRec) (res : List String) (outs : List (String × List Nat)),
      recs.foldl (step dry) (res, outs) =
        (res ++ (recs.foldl (step dry) ([], outs)).1,
          (recs.foldl (step dry) ([], outs)).2) := by
  intro recs
  induction recs with
  | nil => intro res outs; simp
  | cons r rs ih =>
    intro res outs
    have hstep : ∀ res', step dry (res', outs) r =
        (res' ++ [stepLine dry outs r], (stepCore dry outs r).2) := fun _ => rfl
    simp only [List.foldl_cons, hstep, List.nil_append]
    rw [ih (res ++ [stepLine dry outs r]) ((stepCore dry outs r).2),
      ih [stepLine dry outs r] ((stepCore dry outs r).2)]
    simp [List.append_assoc]

theorem foldl_step_len (dry : Bool) :
    ∀ (recs : List FileRec) (res : List String) (outs : List (String × List Nat)),
      ((recs.foldl (step dry) (res, outs)).1).length = res.length + recs.length := by
  intro recs
  induction recs with
  | nil => intro res outs; simp
  | cons r rs ih =>
    intro res outs
    have hstep : step dry (res, outs) r =
        (res ++ [stepLine dry outs r], (stepCore dry outs r).2) := rfl
    simp only [List.foldl_cons, hstep]
    rw [ih]
    simp
    omega

theorem process_log_at (dry : Bool) (xs : List FileRec) (r : FileRec) (ys : List FileRec) :
    (process_files (xs ++ r :: ys) dry).1[xs.length]? =
      some (stepLine dry (process_files xs dry).2 r) := by
  unfold process_files
  rw [List.foldl_append]
  have hstep : step dry (xs.foldl (step dry) ([], [])) r =
      ((xs.foldl (step dry) ([], [])).1 ++
          [stepLine dry (xs.foldl (step dry) ([], [])).2 r],
        (stepCore dry (xs.foldl (step dry) ([], [])).2 r).2) := rfl
  simp only [List.foldl_cons, hstep]
  rw [foldl_step_factor]
  have hlen : (xs.foldl (step dry) ([], [])).1.length = xs.length := by
    have := foldl_step_len dry xs [] []
    simpa using this
  rw [List.append_assoc, List.getElem?_append_right (by omega)]
  simp [hlen]

/-! ### Claims C4 and C5 -/

/-- Claim C4: within one batch, the output filenames are pairwise distinct;
and whenever a candidate name collides with the set of names already
produced, the resolved name is the candidate's stem with `" (N).pdf"`
appended, for the first `N ≥ 1` that is not yet taken (every smaller index
being taken). -/
theorem claim_C4 :
    (∀ (recs : List FileRec) (dry : Bool),
      List.Pairwise (· ≠ ·) ((process_files recs dry).2.map Prod.fst)) ∧
    (∀ (ex : List String) (nn : String), nn ∈ ex →
      ∃ N, 1 ≤ N ∧ resolveName ex nn = candName (splitext nn).1 N ∧
        candName (splitext nn).1 N ∉ ex ∧
        ∀ m, 1 ≤ m → m < N → candName (splitext nn).1 m ∈ ex) := by
  constructor
  · intro recs dry
    exact foldl_step_pairwise dry recs ([], []) (by simp)
  · intro ex nn hmem
    exact resolveAux_mem_spec (splitext nn).1 (ex.length + 1) ex 1 nn (by omega)
      (fun j _ => newName_ne_cand nn j) hmem

/-- Witness for claim C4 at a concrete collision: resolving `"a.pdf"`
against a batch that already produced `"a.pdf"` yields `"a (1).pdf"`. -/
theorem claim_C4_witness :
    ("a.pdf" ∈ ["a.pdf"]) ∧
      ∃ N, 1 ≤ N ∧ resolveName ["a.pdf"] "a.pdf" = candName (splitext "a.pdf").1 N ∧
        candName (splitext "a.pdf").1 N ∉ ["a.pdf"] ∧
        ∀ m, 1 ≤ m → m < N → candName (splitext "a.pdf").1 m ∈ ["a.pdf"] :=
  ⟨by decide, claim_C4.2 ["a.pdf"] "a.pdf" (by decide)⟩

/-- Claim C5: the batch log has exactly one line per input record — its
length equals the input length — and the line at the position of any given
record is the line `stepCore` produces for that record from the outputs
state accumulated over the records before it, regardless of that record's
outcome. -/
theorem claim_C5 :
    (∀ (recs : List FileRec) (dry : Bool),
      (process_files recs dry).1.length = recs.length) ∧
    (∀ (dry : Bool) (xs : List FileRec) (r : FileRec) (ys : List FileRec),
      (process_files (xs ++ r :: ys) dry).1[xs.length]? =
        some (stepLine dry (process_files xs dry).2 r)) := by
  constructor
  · intro recs dry
    have := foldl_step_len dry recs [] []
    simpa [process_files] using this
  · exact process_log_at

/-! ### Lemmas for the name builder and the serial extraction -/

theorem mem_dropWhile_of_ne {α : Type} {q : α → Bool} {c : α}
    (hq : ∀ x, q x = true → x ≠ c) :
    ∀ {l : List α}, c ∈ l → c ∈ l.dropWhile q := by
  intro l
  induction l with
  | nil => intro h; simp at h
  | cons d ds ih =>
    intro h
    by_cases hd : q d
    · rw [List.dropWhile_cons_of_pos hd]
      rcases List.mem_cons.mp h with h | h
      · exact absurd h.symm (hq d hd)
      · exact ih h
    · rw [List.dropWhile_cons_of_neg hd]
      exact h

theorem mem_pyStrip_of_not_ws {c : Char} (hws : isWsChar c = false) {l : List Char}
    (hc : c ∈ l) : c ∈ pyStrip l := by
  have hq : ∀ x, isWsChar x = true → x ≠ c := by
    intro x hx hEq
    rw [hEq, hws] at hx
    cases hx
  have h1 : c ∈ dropLeadWs l := mem_dropWhile_of_ne hq hc
  have h2 : c ∈ (dropLeadWs l).reverse.dropWhile isWsChar :=
    mem_dropWhile_of_ne hq (by simpa using h1)
  simpa [pyStrip, dropTrailWs] using h2

theorem mem_collapseWs_of_not_ws {c : Char} (hws : isWsChar c = false) :
    ∀ (l : List Char) (b : Bool), c ∈ l → c ∈ collapseWs b l := by
  intro l
  induction l with
  | nil => intro b h; simp at h
  | cons d ds ih =>
    intro b h
    simp only [collapseWs]
    by_cases hd : isWsChar d
    · rw [if_pos hd]
      have hcd : c ∈ ds := by
        rcases List.mem_cons.mp h with h | h
        · rw [h] at hws
          rw [hws] at hd
          cases hd
        · exact h
      cases b with
      | true => exact ih true hcd
      | false =>
        rw [if_neg (by decide)]
        exact List.mem_cons_of_mem _ (ih true hcd)
    · rw [if_neg hd]
      rcases List.mem_cons.mp h with h | h
      · exact h ▸ List.mem_cons_self _ _
      · exact List.mem_cons_of_mem _ (ih false h)

theorem mem_sanitizeData {c : Char} (hws : isWsChar c = false)
    (hil : isIllegalChar c = false) {l : List Char} (hc : c ∈ l) :
    c ∈ sanitizeData l := by
  have h1 : c ∈ pyStrip l := mem_pyStrip_of_not_ws hws hc
  have h2 : c ∈ (pyStrip l).map replIllegal := by
    have := List.mem_map_of_mem replIllegal h1
    simpa [replIllegal, hil] using this
  exact mem_collapseWs_of_not_ws hws _ _ h2

theorem strMk_eq_empty_iff (l : List Char) : (⟨l⟩ : String) = "" ↔ l = [] := by
  constructor
  · intro h
    exact congrArg String.data h
  · intro h
    rw [h]

/-- Claim C6: the name builder returns `none` whenever either field is
absent, and returns a `.pdf`-suffixed name whenever both fields are present
and sanitize to something non-empty. -/
theorem claim_C6 :
    (∀ (seri : Option String) (pretty : Bool), build_new_name none seri pretty = none) ∧
    (∀ (ref : Option String) (pretty : Bool), build_new_name ref none pretty = none) ∧
    (∀ (r s : String) (pretty : Bool), _sanitize r ≠ "" → _sanitize s ≠ "" →
      ∃ base : String, build_new_name (some r) (some s) pretty = some (base ++ ".pdf")) := by
  refine ⟨?_, ?_, ?_⟩
  · intro seri pretty
    cases seri <;> rfl
  · intro ref pretty
    cases ref <;> rfl
  · intro r s pretty hr hs
    have hr' : r ≠ "" := by
      intro h
      exact hr (by rw [h]; rfl)
    have hs' : s ≠ "" := by
      intro h
      exact hs (by rw [h]; rfl)
    refine ⟨_sanitize (_invoice_ref_to_filename (_sanitize r) pretty ++ " - " ++ s), ?_⟩
    have hbase : _sanitize (_invoice_ref_to_filename (_sanitize r) pretty ++ " - " ++ s) ≠ "" := by
      intro hEq
      have hdash : '-' ∈ (_invoice_ref_to_filename (_sanitize r) pretty ++ " - " ++ s).data := by
        simp only [String.data_append]
        refine List.mem_append.mpr (Or.inl (List.mem_append.mpr (Or.inr ?_)))
        decide
      have hmem : '-' ∈ sanitizeData (_invoice_ref_to_filename (_sanitize r) pretty ++ " - " ++ s).data :=
        mem_sanitizeData (by decide) (by decide) hdash
      have : sanitizeData (_invoice_ref_to_filename (_sanitize r) pretty ++ " - " ++ s).data = [] :=
        (strMk_eq_empty_iff _).mp hEq
      rw [this] at hmem
      simp at hmem
    simp only [build_new_name, hr', hs']
    rw [if_neg (by simp [hr', hs'])]
    rw [if_neg hbase]

/-- Witness for claim C6 at concrete inputs `"A"` and `"1"`. -/
theorem claim_C6_witness :
    _sanitize "A" ≠ "" ∧ _sanitize "1" ≠ "" ∧
      ∃ base : String, build_new_name (some "A") (some "1") true = some (base ++ ".pdf") :=
  ⟨by decide, by decide, claim_C6.2.2 "A" "1" true (by decide) (by decide)⟩

theorem digit_not_ws {c : Char} (h : c.isDigit = true) : isWsChar c = false := by
  cases hws : isWsChar c
  · rfl
  · exfalso
    have hv : c = ' ' ∨ c = '\t' ∨ c = '\n' ∨ c = '\r' ∨ c = '\x0b' ∨ c = '\x0c' := by
      simpa [isWsChar, or_assoc] using hws
    rcases hv with rfl | rfl | rfl | rfl | rfl | rfl <;> revert h <;> decide

theorem digit_not_illegal {c : Char} (h : c.isDigit = true) : isIllegalChar c = false := by
  cases his : isIllegalChar c
  · rfl
  · exfalso
    have hv : c = '\\' ∨ c = '/' ∨ c = ':' ∨ c = '*' ∨ c = '?' ∨ c = '"' ∨
        c = '<' ∨ c = '>' ∨ c = '|' ∨ c = '\r' ∨ c = '\n' ∨ c = '\t' := by
      simpa [isIllegalChar, or_assoc] using his
    rcases hv with rfl | rfl | rfl | rfl | rfl | rfl | rfl | rfl | rfl | rfl | rfl | rfl <;>
      revert h <;> decide

theorem chain'_noWW_of_nows :
    ∀ (l : List Char), (∀ c ∈ l, isWsChar c = false) → List.Chain' noWW l := by
  intro l
  induction l with
  | nil => intro _; simp
  | cons d ds ih =>
    intro h
    refine List.chain'_cons'.mpr ⟨?_, ih (fun c hc => h c (List.mem_cons_of_mem _ hc))⟩
    intro y _ hc
    have := h d (List.mem_cons_self _ _)
    rw [this] at hc
    exact absurd hc.1 (by simp)

theorem dropWhile_eq_self_of {α : Type} {q : α → Bool} :
    ∀ (l : List α), (∀ c ∈ l, q c = false) → l.dropWhile q = l := by
  intro l h
  cases l with
  | nil => rfl
  | cons d ds =>
    exact List.dropWhile_cons_of_neg (by simp [h d (List.mem_cons_self _ _)])

/-- Sanitization is the identity on a string of digits. -/
theorem sanitizeData_digits (l : List Char) (h : ∀ c ∈ l, Char.isDigit c = true) :
    sanitizeData l = l := by
  have hnw : ∀ c ∈ l, isWsChar c = false := fun c hc => digit_not_ws (h c hc)
  have hstrip : pyStrip l = l := by
    unfold pyStrip dropTrailWs dropLeadWs
    rw [dropWhile_eq_self_of l hnw]
    rw [dropWhile_eq_self_of l.reverse (fun c hc => hnw c (List.mem_reverse.mp hc))]
    exact List.reverse_reverse l
  unfold sanitizeData
  rw [hstrip, map_replIllegal_id l (fun c hc => digit_not_illegal (h c hc))]
  exact collapseWs_eq_self l false
    (fun c hc hw => absurd (hnw c hc) (by simp [hw]))
    (chain'_noWW_of_nows l hnw) (by simp)

/-- The three cleanup passes on the serial capture leave exactly its
digits. -/
theorem seriClean_eq_filter (g : List Char) :
    seriClean g = g.filter Char.isDigit := by
  unfold seriClean
  have hchain : ((g.filter fun c => c.isDigit || c = '.' || c = '-').filter
      fun c => c ≠ '.').filter (fun c => c ≠ '-') = g.filter Char.isDigit := by
    rw [List.filter_filter, List.filter_filter]
    refine List.filter_congr ?_
    intro x _
    by_cases h1 : x = '.'
    · subst h1
      decide
    · by_cases h2 : x = '-'
      · subst h2
        decide
      · simp [h1, h2]
  rw [hchain]
  exact sanitizeData_digits _ (fun c hc => List.of_mem_filter hc)

/-- The serial component of `parse_fields` is `extractSeri` applied to the
normalized text. -/
theorem parse_fields_seri (raw : String) :
    (parse_fields raw).2 = extractSeri ⟨normData raw.data⟩ := rfl

/-- Claim C7: when the `RE_SERI` label matches, the extracted serial is
exactly the digits of the capture (every non-digit/dot/dash character
removed, then dots and dashes removed), or absent when no digit remains;
when the label does not match, the serial is absent.  Every character of an
extracted serial is a digit. -/
theorem claim_C7 :
    ∀ t : String,
      (match searchSeri t.data with
        | none => extractSeri t = none
        | some g =>
            extractSeri t =
              (if g.filter Char.isDigit = [] then none
               else some ⟨g.filter Char.isDigit⟩)) ∧
      (∀ s : String, extractSeri t = some s → ∀ c ∈ s.data, Char.isDigit c = true) := by
  intro t
  have hmain :
      (match searchSeri t.data with
        | none => extractSeri t = none
        | some g =>
            extractSeri t =
              (if g.filter Char.isDigit = [] then none
               else some ⟨g.filter Char.isDigit⟩)) := by
    cases h : searchSeri t.data with
    | none => simp [extractSeri, h, orNone]
    | some g =>
      simp only [extractSeri, h, seriClean_eq_filter, orNone]
      by_cases he : g.filter Char.isDigit = []
      · rw [if_pos he, if_pos ((strMk_eq_empty_iff _).mpr he)]
      · rw [if_neg he, if_neg (fun hc => he ((strMk_eq_empty_iff _).mp hc))]
  refine ⟨hmain, ?_⟩
  intro s hs c hc
  cases h : searchSeri t.data with
  | none =>
    rw [h] at hmain
    rw [hmain] at hs
    cases hs
  | some g =>
    rw [h] at hmain
    rw [hmain] at hs
    by_cases he : g.filter Char.isDigit = []
    · rw [if_pos he] at hs
      cases hs
    · rw [if_neg he] at hs
      injection hs with hs'
      rw [← hs'] at hc
      exact List.of_mem_filter hc

/-- Witness for claim C7 at a concrete text whose label is present. -/
theorem claim_C7_witness :
    extractSeri "Kode dan Nomor Seri Faktur Pajak: 12.3" = some "123" ∧
      Char.isDigit '1' = true := by
  have h := claim_C7 "Kode dan Nomor Seri Faktur Pajak: 12.3"
  refine ⟨?_, ?_⟩
  · have h1 := h.1
    exact h1.trans (by decide)
  · exact h.2 "123" (h.1.trans (by decide)) '1' (by decide)

/-! ### Claims C2, C1, C9, C10 -/

/-- Claim C2: whenever the strict pattern `\bINV/\d{4}/\d{2}/\d{4}\b`
matches anywhere in the normalized text, the reference tier selects the
uppercased match directly — the `Referensi` labeled-phrase fallback is
never consulted, wherever in the text the match sits. -/
theorem claim_C2 :
    ∀ (norm m : List Char), searchStrict norm = some m →
      refTier norm = some ⟨m.map Char.toUpper⟩ := by
  intro norm m h
  simp [refTier, h]

/-- Witness for claim C2: the strict match sits after a `Referensi` phrase
that would also match, and still wins. -/
theorem claim_C2_witness :
    searchStrict ("x (Referensi: ABC) inv/2025/09/0654".data) =
        some ("inv/2025/09/0654".data) ∧
      refTier ("x (Referensi: ABC) inv/2025/09/0654".data) =
        some "INV/2025/09/0654" := by
  refine ⟨by decide, ?_⟩
  have h := claim_C2 ("x (Referensi: ABC) inv/2025/09/0654".data)
    ("inv/2025/09/0654".data) (by decide)
  exact h.trans (by decide)

/-- Claim C1 (evaluation at the failing input): on the specification's
end-to-end example text the pipeline yields the reference
`"INV 2025 09 0654"` and the filename
`"INV 2025 09 0654 - 123456789.pdf"` — not the full-width-slash forms the
specification expects.  `parse_pdf_fields` applies `_sanitize` (which turns
`/` into a space) before `_invoice_ref_to_filename` (which would turn `/`
into `／`), so the full-width substitution never fires. -/
theorem claim_C1 :
    parse_fields c1Text = (some "INV 2025 09 0654", some "123456789") ∧
      build_new_name (parse_fields c1Text).1 (parse_fields c1Text).2 true =
        some "INV 2025 09 0654 - 123456789.pdf" ∧
      ("INV 2025 09 0654 - 123456789.pdf" : String) ≠
        "INV／2025／09／0654 - 123456789.pdf" := by
  exact ⟨by decide, by decide, by decide⟩

/-- Claim C9: the log depends on the dry-run flag.  Two files composing the
same candidate name both get the bare name in a dry run (outputs stay
empty, so no collision is seen), while a real run logs the second with the
`" (1)"` suffix. -/
theorem claim_C9 :
    (process_files [twinRec1, twinRec2] true).1 =
        ["✅ a.pdf → INV 2025 09 0654 - 123456789.pdf",
         "✅ b.pdf → INV 2025 09 0654 - 123456789.pdf"] ∧
      (process_files [twinRec1, twinRec2] false).1 =
        ["✅ a.pdf → INV 2025 09 0654 - 123456789.pdf",
         "✅ b.pdf → INV 2025 09 0654 - 123456789 (1).pdf"] ∧
      ("✅ b.pdf → INV 2025 09 0654 - 123456789.pdf" : String) ≠
        "✅ b.pdf → INV 2025 09 0654 - 123456789 (1).pdf" := by
  exact ⟨by decide, by decide, by decide⟩

/-- Claim C10: a record whose filename is missing (read as `""`) or does
not end in `.pdf` case-insensitively is logged as `❌ Bukan PDF: <name>`
with outputs untouched, for either dry-run flag; and the step's result does
not depend on the record's bytes or on its extraction outcome. -/
theorem claim_C10 :
    ∀ (dry : Bool) (st : List String × List (String × List Nat)) (r : FileRec),
      (r.filename = none ∨ endsWithPdfCI (r.filename.getD "") = false) →
      step dry st r = (st.1 ++ ["❌ Bukan PDF: " ++ r.filename.getD ""], st.2) ∧
      (∀ (d : List Nat) (e : Option String),
        step dry st ⟨r.filename, d, e⟩ = step dry st r) := by
  intro dry st r h
  have hb : endsWithPdfCI (r.filename.getD "") = false := by
    rcases h with h | h
    · rw [h]
      rfl
    · exact h
  constructor
  · show (st.1 ++ [(stepCore dry st.2 r).1], (stepCore dry st.2 r).2) = _
    simp [stepCore, hb]
  · intro d e
    show (st.1 ++ [(stepCore dry st.2 ⟨r.filename, d, e⟩).1],
        (stepCore dry st.2 ⟨r.filename, d, e⟩).2) =
      (st.1 ++ [(stepCore dry st.2 r).1], (stepCore dry st.2 r).2)
    simp [stepCore, hb]

/-- Witness for claim C10: a `.txt` upload is rejected without its bytes or
extraction result mattering. -/
theorem claim_C10_witness :
    step false ([], []) ⟨some "notes.txt", [7], some c1Text⟩ =
      (["❌ Bukan PDF: notes.txt"], []) := by
  have h := (claim_C10 false ([], []) ⟨some "notes.txt", [7], some c1Text⟩
    (Or.inr (by decide))).1
  exact h.trans (by decide)

end Renamer
